import Mathlib

/-!
Verification of the gossip round-counter state machine from
`src/gossip_median_with_round/gossip.rs` (struct `Gossip`).

The Rust `BTreeMap<Digest256, _>` is embedded as an association list with
distinct keys; the `u8` counters are embedded as `Nat` (every increment in the
source is guarded by a comparison against a threshold that is far below 255
for every reachable peer count, so `u8` wrap-around is unreachable and plain
`Nat` successor is the faithful model).  The SHA3-256 digest function is an
arbitrary parameter `hash : π → δ`; the source uses it purely as a
deduplication key.
-/

section AssocList

variable {δ β : Type} [DecidableEq δ]

/-- First-match lookup in an association list (the model of `BTreeMap::get`). -/
def lookupA : List (δ × β) → δ → Option β
  | [], _ => none
  | e :: t, k => if e.1 = k then some e.2 else lookupA t k

/-- Model of `entry(k).or_insert(v)`: leave the list unchanged when the key is present,
otherwise add the binding `(k, v)`. -/
def insertIfAbsent (l : List (δ × β)) (k : δ) (v : β) : List (δ × β) :=
  match lookupA l k with
  | some _ => l
  | none => l ++ [(k, v)]

/-- Rewrite every stored value in place, with access to its key (the model of
a `for (k, v) in &mut map` loop). -/
def mapVal (f : δ → β → β) (l : List (δ × β)) : List (δ × β) :=
  l.map (fun e => (e.1, f e.1 e.2))

end AssocList

/-- Ceilings `⌈e^k⌉` for `k = 0, …, 44`, covering `⌊ln n⌋` for every `u64`
peer count (`ln (2^64) < 45`). -/
def expCeil : List Nat :=
  [1, 3, 8, 21, 55, 149, 404, 1097, 2981, 8104, 22027, 59875, 162755,
   442414, 1202605, 3269018, 8886111, 24154953, 65659970, 178482301,
   485165196, 1318815735, 3584912847, 9744803447, 26489122130,
   72004899338, 195729609429, 532048240602, 1446257064292,
   3931334297145, 10686474581525, 29048849665248, 78962960182681,
   214643579785917, 583461742527455, 1586013452313431,
   4311231547115196, 11719142372802612, 31855931757113757,
   86593400423993747, 235385266837019986, 639843493530054950,
   1739274941520501048, 4727839468229346562, 12851600114359308276]

/-- Ceilings `⌈e^(e^k)⌉` for `k = 0, …, 3`; `e^(e^4) > 2^64`, so these cover
`⌊ln (ln n)⌋` for every `u64` peer count. -/
def expExpCeil : List Nat := [3, 16, 1619, 528491312]

/-- The value of `(n as f64).ln() as u8` from `add_peer` (gossip.rs line 60):
the exact floor of the real `ln n`, with the negative / undefined results at
`n = 0` mapped to `0` as the saturating float-to-integer cast does.  Exact on
the whole `u64` range of the source's peer counter: `f64` rounding error is
orders of magnitude below the distance from any representable `ln n` to the
nearest integer at the table boundaries. -/
def lnAsU8 (n : Nat) : Nat :=
  Nat.findGreatest (fun k => expCeil.getD k (10 ^ 30) ≤ n) 44

/-- The value of `(n as f64).ln().ln() as u8` from `add_peer` (gossip.rs
line 58), modelled like `lnAsU8`: the exact floor of `ln (ln n)`, with
negative / undefined results mapped to `0`. -/
def lnlnAsU8 (n : Nat) : Nat :=
  Nat.findGreatest (fun k => expExpCeil.getD k (10 ^ 30) ≤ n) 3

/-- The gossip protocol handler state (struct `Gossip`, gossip.rs lines
26–41).  `δ` is the digest type (`Digest256` in the source), `π` the payload
type (`Vec<u8>`). -/
structure Gossip (δ π : Type) where
  /-- Entries `(hash_msg, ((counter, rounds), payload))` (source field `messages`). -/
  messages : List (δ × ((Nat × Nat) × π))
  total_peers : Nat
  hot_rounds : Nat
  cold_rounds : Nat
  terminate_rounds : Nat
  /-- counters of messages received during one round (source field `hits`). -/
  hits : List (δ × List Nat)

namespace Gossip

variable {δ π : Type} [DecidableEq δ]

/-- Constructor `Gossip::new` (gossip.rs lines 44–53). -/
def new : Gossip δ π :=
  { messages := [], total_peers := 0, hot_rounds := 0, cold_rounds := 0,
    terminate_rounds := 0, hits := [] }

/-- Operation `Gossip::add_peer` (gossip.rs lines 55–61). -/
def add_peer (g : Gossip δ π) : Gossip δ π :=
  let n := g.total_peers + 1
  let hot := max 1 (lnlnAsU8 n)
  let cold := max 2 (2 * hot)
  { g with
    total_peers := n
    hot_rounds := hot
    cold_rounds := cold
    terminate_rounds := max cold (lnAsU8 n) }

/-- Operation `Gossip::messages` (gossip.rs lines 63–65): the stored payloads. -/
def messagesSnapshot (g : Gossip δ π) : List π :=
  g.messages.map (fun v => v.2.2)

/-- Operation `Gossip::inform` (gossip.rs lines 67–70). -/
def inform (hash : π → δ) (msg : π) (g : Gossip δ π) : Gossip δ π :=
  { g with messages := insertIfAbsent g.messages (hash msg) ((0, 0), msg) }

/-- Operation `Gossip::receive` (gossip.rs lines 72–83). -/
def receive (hash : π → δ) (count : Nat) (msg : π) (g : Gossip δ π) :
    Gossip δ π :=
  let d := hash msg
  let ms := insertIfAbsent g.messages d ((count, count), msg)
  let ms := mapVal
    (fun k v => if k = d ∧ v.1.1 < count then ((count, v.1.2), v.2) else v) ms
  let hs := insertIfAbsent g.hits d []
  let hs := mapVal (fun k v => if k = d then v ++ [count] else v) hs
  { g with messages := ms, hits := hs }

/-- The snapshot computed at the start of `get_push_list` (gossip.rs lines
86–95): every entry with `push_counter ≤ hot_rounds` and
`age_counter ≤ terminate_rounds`, paired with its current `push_counter`. -/
def pushSnapshot (g : Gossip δ π) : List (Nat × π) :=
  g.messages.filterMap (fun v =>
    if v.2.1.1 ≤ g.hot_rounds ∧ v.2.1.2 ≤ g.terminate_rounds then
      some (v.2.1.1, v.2.2)
    else none)

/-- One entry's counter update in the round-advance loop of `get_push_list`
(gossip.rs lines 96–103). -/
def advanceEntry (hot cold term : Nat) (c : Nat × Nat) : Nat × Nat :=
  let p := if hot < c.1 ∧ c.1 ≤ cold then c.1 + 1 else c.1
  let a := if c.2 ≤ term then c.2 + 1 else c.2
  (p, a)

/-- The round-advance loop of `get_push_list` (gossip.rs lines 96–103). -/
def roundAdvance (g : Gossip δ π) : Gossip δ π :=
  let f := fun (_ : δ) (v : (Nat × Nat) × π) =>
    (advanceEntry g.hot_rounds g.cold_rounds g.terminate_rounds v.1, v.2)
  { g with messages := mapVal f g.messages }

/-- Count `less` from the hit-tally loop (gossip.rs lines 111–116): how many
reported counters are below the local `push_counter`. -/
def ltCount (pc : Nat) (hs : List Nat) : Nat :=
  (hs.filter (fun h => h < pc)).length

/-- Count `greater_or_equal` from the hit-tally loop (gossip.rs lines 112–118). -/
def geCount (pc : Nat) (hs : List Nat) : Nat :=
  (hs.filter (fun h => ¬ h < pc)).length

/-- One entry's update in the hit-tally reconciliation loop of
`get_push_list` (gossip.rs lines 109–124). -/
def hitAdjust (hot : Nat) (tally : List (δ × List Nat)) (k : δ)
    (v : (Nat × Nat) × π) : (Nat × Nat) × π :=
  match lookupA tally k with
  | none => v
  | some hs =>
      if ltCount v.1.1 hs < geCount v.1.1 hs ∧ v.1.1 ≤ hot then
        ((v.1.1 + 1, v.1.2), v.2)
      else v

/-- The hit-tally reconciliation loop of `get_push_list` (gossip.rs lines
108–124), applied after the taken tally `hits_map`. -/
def reconcileHits (g : Gossip δ π) (tally : List (δ × List Nat)) :
    Gossip δ π :=
  let ms := mapVal (hitAdjust g.hot_rounds tally) g.messages
  { g with messages := ms }

/-- Decides whether the reconciliation loop grants an entry with digest `d`
and (post-advance) counter `pc` the extra `push_counter` step. -/
def condHit (hot : Nat) (tally : List (δ × List Nat)) (d : δ) (pc : Nat) :
    Bool :=
  match lookupA tally d with
  | none => false
  | some hs => decide (ltCount pc hs < geCount pc hs) && decide (pc ≤ hot)

/-- Operation `Gossip::get_push_list` (gossip.rs lines 85–127): returns the pre-advance
push list together with the mutated state (snapshot, then round advance, then
take-and-clear of the hit tally followed by reconciliation). -/
def get_push_list (g : Gossip δ π) : List (Nat × π) × Gossip δ π :=
  let push_list := pushSnapshot g
  let g1 := roundAdvance g
  let hits_map := g1.hits
  let g2 : Gossip δ π := { g1 with hits := [] }
  (push_list, reconcileHits g2 hits_map)

/-- Operation `Gossip::handle_pull` (gossip.rs lines 129–140): `&self`, no mutation. -/
def handle_pull (g : Gossip δ π) : List (Nat × π) :=
  g.messages.filterMap (fun v =>
    if v.2.1.1 ≤ g.cold_rounds ∧ v.2.1.2 ≤ g.terminate_rounds then
      some (v.2.1.1, v.2.2)
    else none)

end Gossip

/-- The externally driveable operations of the handler. -/
inductive Op (π : Type) where
  | add_peer : Op π
  | inform (msg : π) : Op π
  | receive (count : Nat) (msg : π) : Op π
  | get_push_list : Op π
  | handle_pull : Op π
deriving DecidableEq

/-- The state transition of one operation.  `handle_pull` takes `&self` in the
source and leaves the state unchanged; `get_push_list` keeps the state
component of the call. -/
def stepOp {δ π : Type} [DecidableEq δ] (hash : π → δ) (g : Gossip δ π) :
    Op π → Gossip δ π
  | .add_peer => g.add_peer
  | .inform m => g.inform hash m
  | .receive c m => g.receive hash c m
  | .get_push_list => (g.get_push_list).2
  | .handle_pull => g

/-- Run a sequence of operations from a state. -/
def runOps {δ π : Type} [DecidableEq δ] (hash : π → δ) (g : Gossip δ π)
    (ops : List (Op π)) : Gossip δ π :=
  ops.foldl (stepOp hash) g

namespace Gossip

/-- A rumor with payload `p` is terminated in `g`: its digest is stored and
every stored entry carrying payload `p` has `age_counter` strictly above
`terminate_rounds`, which equals `T`. -/
def deadFor {δ π : Type} [DecidableEq δ] [DecidableEq π] (hash : π → δ)
    (p : π) (T : Nat) (g : Gossip δ π) : Prop :=
  g.terminate_rounds = T ∧ (lookupA g.messages (hash p)).isSome = true ∧
    ∀ e ∈ g.messages, e.2.2 = p → T < e.2.1.2

/-- Well-formedness of the store: every entry is keyed by the digest of its
own payload, and keys are pairwise distinct (both hold in the source, where
the map is keyed by `sha3_256` of the stored payload). -/
def WF {δ π : Type} [DecidableEq δ] (hash : π → δ) (g : Gossip δ π) : Prop :=
  (∀ e ∈ g.messages, e.1 = hash e.2.2) ∧ (g.messages.map Prod.fst).Nodup

end Gossip

/-- Concrete scenario, first phase: one peer, one locally originated rumor,
four rounds.  After these the rumor's `age_counter` is `3`, strictly above
`terminate_rounds = 2`. -/
def cexOps : List (Op Nat) :=
  [Op.add_peer, Op.inform 0, Op.get_push_list, Op.get_push_list,
   Op.get_push_list, Op.get_push_list]

/-- The state reached by `cexOps` from the empty store (digests are taken to
be the payloads themselves: `hash = id`). -/
def cexMid : Gossip Nat Nat := runOps id Gossip.new cexOps

/-- The state reached from `cexMid` by twenty further `add_peer` calls,
which raise `terminate_rounds` from `2` to `3`. -/
def cexFin : Gossip Nat Nat := runOps id cexMid (List.replicate 20 Op.add_peer)

/-- Concrete store holding one terminated rumor (`age_counter = 3` against
`terminate_rounds = 2`), used to instantiate the termination theorem. -/
def wDead : Gossip Nat Nat :=
  { messages := [(7, ((0, 3), 7))], total_peers := 1, hot_rounds := 1,
    cold_rounds := 2, terminate_rounds := 2, hits := [] }

/-- Concrete operation sequence without `add_peer`. -/
def wOpsDead : List (Op Nat) :=
  [Op.get_push_list, Op.handle_pull, Op.inform 7, Op.receive 1 7,
   Op.get_push_list]

/-- Concrete store instantiating the round-advance theorem. -/
def wAdv : Gossip Nat Nat :=
  { messages := [(0, ((2, 1), 5))], total_peers := 0, hot_rounds := 1,
    cold_rounds := 3, terminate_rounds := 4, hits := [] }

/-- Concrete store instantiating the hit-tally reconciliation theorem. -/
def wHit : Gossip Nat Nat :=
  { messages := [(0, ((1, 0), 9))], total_peers := 0, hot_rounds := 2,
    cold_rounds := 4, terminate_rounds := 5, hits := [(0, [3, 3, 0])] }

/-- Concrete store instantiating the `receive` theorem. -/
def wRecv : Gossip Nat Nat :=
  { messages := [(4, ((1, 2), 4))], total_peers := 0, hot_rounds := 0,
    cold_rounds := 0, terminate_rounds := 0, hits := [] }

/-- Concrete store whose single entry was registered by `receive` (counters
`(2, 2)` and a recorded hit), used to instantiate the no-op case of
`inform` on an already-stored digest. -/
def wInf : Gossip Nat Nat := (Gossip.new : Gossip Nat Nat).receive id 2 4

/-- Concrete store instantiating the bounded-advance theorem. -/
def wBump : Gossip Nat Nat :=
  { messages := [(0, ((2, 0), 1))], total_peers := 0, hot_rounds := 1,
    cold_rounds := 3, terminate_rounds := 4, hits := [] }

section AssocLemmas

variable {δ β : Type} [DecidableEq δ]

theorem lookupA_mapVal (f : δ → β → β) :
    ∀ (l : List (δ × β)) (k : δ),
      lookupA (mapVal f l) k = (lookupA l k).map (f k)
  | [], _ => rfl
  | e :: t, k => by
      by_cases h : e.1 = k
      · simp [mapVal, lookupA, h]
      · simpa [mapVal, lookupA, h] using lookupA_mapVal f t k

theorem lookupA_append_of_some {l : List (δ × β)} {k : δ} {w : β}
    (l2 : List (δ × β)) (h : lookupA l k = some w) :
    lookupA (l ++ l2) k = some w := by
  induction l with
  | nil => simp [lookupA] at h
  | cons e t ih =>
      by_cases he : e.1 = k
      · rw [List.cons_append]
        simp only [lookupA, if_pos he] at h ⊢
        exact h
      · rw [List.cons_append]
        simp only [lookupA, if_neg he] at h ⊢
        exact ih h

theorem lookupA_append_of_none {l : List (δ × β)} {k : δ}
    (l2 : List (δ × β)) (h : lookupA l k = none) :
    lookupA (l ++ l2) k = lookupA l2 k := by
  induction l with
  | nil => rfl
  | cons e t ih =>
      by_cases he : e.1 = k
      · simp [lookupA, he] at h
      · simp only [lookupA, he, if_false, List.cons_append] at h ⊢
        exact ih h

theorem lookupA_insertIfAbsent_self (l : List (δ × β)) (k : δ) (v : β) :
    lookupA (insertIfAbsent l k v) k = some ((lookupA l k).getD v) := by
  rcases h : lookupA l k with _ | w
  · rw [insertIfAbsent, h, lookupA_append_of_none _ h]
    simp [lookupA]
  · rw [insertIfAbsent, h, h]
    rfl

theorem lookupA_insertIfAbsent_of_some {l : List (δ × β)} {k' : δ} {w : β}
    (k : δ) (v : β) (h : lookupA l k' = some w) :
    lookupA (insertIfAbsent l k v) k' = some w := by
  rcases hk : lookupA l k with _ | u
  · rw [insertIfAbsent, hk]
    exact lookupA_append_of_some _ h
  · rw [insertIfAbsent, hk]
    exact h

theorem lookupA_eq_none_iff (l : List (δ × β)) (k : δ) :
    lookupA l k = none ↔ ∀ e ∈ l, e.1 ≠ k := by
  induction l with
  | nil => simp [lookupA]
  | cons e t ih =>
      by_cases he : e.1 = k
      · simp [lookupA, he]
      · simp [lookupA, he, ih]

theorem mem_insertIfAbsent {x : δ × β} {l : List (δ × β)} {k : δ} {v : β}
    (h : x ∈ insertIfAbsent l k v) : x ∈ l ∨ x = (k, v) := by
  rcases hk : lookupA l k with _ | u
  · rw [insertIfAbsent, hk] at h
    rcases List.mem_append.1 h with h1 | h2
    · exact Or.inl h1
    · exact Or.inr (List.mem_singleton.1 h2)
  · rw [insertIfAbsent, hk] at h
    exact Or.inl h

omit [DecidableEq δ] in
theorem mem_mapVal {f : δ → β → β} {x : δ × β} {l : List (δ × β)}
    (h : x ∈ mapVal f l) : ∃ e ∈ l, x = (e.1, f e.1 e.2) := by
  rcases List.mem_map.1 h with ⟨e, he, hx⟩
  exact ⟨e, he, hx.symm⟩

end AssocLemmas

namespace Gossip

variable {δ π : Type} [DecidableEq δ]

theorem lookupA_roundAdvance (g : Gossip δ π) (d : δ) (pc age : Nat) (pl : π)
    (h : lookupA g.messages d = some ((pc, age), pl)) :
    lookupA g.roundAdvance.messages d =
      some ((if g.hot_rounds < pc ∧ pc ≤ g.cold_rounds then pc + 1 else pc,
             if age ≤ g.terminate_rounds then age + 1 else age), pl) := by
  have h2 : g.roundAdvance.messages
      = mapVal (fun _ v =>
          (advanceEntry g.hot_rounds g.cold_rounds g.terminate_rounds v.1,
           v.2)) g.messages := rfl
  rw [h2, lookupA_mapVal, h]
  simp [advanceEntry]

theorem hitAdjust_eq (hot : Nat) (tally : List (δ × List Nat)) (d : δ)
    (pc age : Nat) (pl : π) :
    hitAdjust hot tally d ((pc, age), pl) =
      ((pc + (if condHit hot tally d pc then 1 else 0), age), pl) := by
  rcases h : lookupA tally d with _ | hs
  · simp [hitAdjust, condHit, h]
  · by_cases hc : ltCount pc hs < geCount pc hs ∧ pc ≤ hot
    · simp [hitAdjust, condHit, h, hc]
    · simp [hitAdjust, condHit, h, hc]

theorem lookupA_get_push_list (g : Gossip δ π) (d : δ) (pc age : Nat)
    (pl : π) (h : lookupA g.roundAdvance.messages d = some ((pc, age), pl)) :
    lookupA g.get_push_list.2.messages d =
      some ((pc + (if condHit g.hot_rounds g.hits d pc then 1 else 0),
             age), pl) := by
  have h2 : g.get_push_list.2.messages
      = mapVal (hitAdjust g.hot_rounds g.hits) g.roundAdvance.messages := rfl
  rw [h2, lookupA_mapVal, h]
  simp [hitAdjust_eq]

theorem condHit_le {hot : Nat} {tally : List (δ × List Nat)} {d : δ}
    {pc : Nat} (h : condHit hot tally d pc = true) : pc ≤ hot := by
  rcases hl : lookupA tally d with _ | hs
  · rw [condHit, hl] at h
    cases h
  · rw [condHit, hl] at h
    exact of_decide_eq_true (Bool.and_elim_right h)

end Gossip

namespace Gossip

variable {δ π : Type} [DecidableEq δ]

/-- C2: `get_push_list` returns exactly the entries whose pre-advance
counters satisfy `push_counter ≤ hot_rounds` and
`age_counter ≤ terminate_rounds`, each paired with its pre-advance
`push_counter`; the returned pairs reflect the state before any counter
advance performed by the same call. -/
theorem get_push_list_returns_hot_active_pre_advance (g : Gossip δ π)
    (c : Nat) (pl : π) :
    (c, pl) ∈ g.get_push_list.1 ↔
      ∃ d age, (d, ((c, age), pl)) ∈ g.messages ∧
        c ≤ g.hot_rounds ∧ age ≤ g.terminate_rounds := by
  have h1 : g.get_push_list.1 = g.pushSnapshot := rfl
  rw [h1, pushSnapshot, List.mem_filterMap]
  constructor
  · rintro ⟨e, he, hf⟩
    by_cases hcond : e.2.1.1 ≤ g.hot_rounds ∧ e.2.1.2 ≤ g.terminate_rounds
    · rw [if_pos hcond] at hf
      have hc : e.2.1.1 = c := congrArg Prod.fst (Option.some.inj hf)
      have hp : e.2.2 = pl := congrArg Prod.snd (Option.some.inj hf)
      refine ⟨e.1, e.2.1.2, ?_, hc ▸ hcond.1, hcond.2⟩
      rw [← hc, ← hp]
      exact he
    · rw [if_neg hcond] at hf
      cases hf
  · rintro ⟨d, age, hmem, hc, ha⟩
    exact ⟨(d, ((c, age), pl)), hmem, by simp [hc, ha]⟩

/-- C3: during the round-advance step of `get_push_list`, a stored entry's
`push_counter` is incremented by one exactly when
`hot_rounds < push_counter ≤ cold_rounds`, and independently its
`age_counter` is incremented by one exactly when
`age_counter ≤ terminate_rounds`. -/
theorem round_advance_increments_iff (g : Gossip δ π) (d : δ)
    (pc age : Nat) (pl : π)
    (h : lookupA g.messages d = some ((pc, age), pl)) :
    lookupA g.roundAdvance.messages d =
      some ((if g.hot_rounds < pc ∧ pc ≤ g.cold_rounds then pc + 1 else pc,
             if age ≤ g.terminate_rounds then age + 1 else age), pl) :=
  lookupA_roundAdvance g d pc age pl h

/-- Witness for `round_advance_increments_iff` at a concrete store. -/
theorem round_advance_increments_iff_witness :
    lookupA (Gossip.roundAdvance wAdv).messages 0 = some ((3, 2), 5) := by
  have h := round_advance_increments_iff wAdv 0 2 1 5 (by decide)
  simpa using h

/-- C4: `get_push_list` takes and clears the hit tally (it is empty when the
call returns), and grants an entry one extra `push_counter` step exactly when
the tally holds counters for its digest of which at least as many are
`≥ push_counter` as are `< push_counter` (strictly more), compared against
the post-round-advance `push_counter`, and that counter is still in the hot
range. -/
theorem get_push_list_clears_tally_and_majority_bump (g : Gossip δ π) :
    g.get_push_list.2.hits = [] ∧
      ∀ d pc age pl,
        lookupA g.roundAdvance.messages d = some ((pc, age), pl) →
        lookupA g.get_push_list.2.messages d =
          some ((pc + (if condHit g.hot_rounds g.hits d pc then 1 else 0),
                 age), pl) :=
  ⟨rfl, fun d pc age pl h => lookupA_get_push_list g d pc age pl h⟩

/-- Witness for `get_push_list_clears_tally_and_majority_bump` at a concrete
store: the tally `[3, 3, 0]` against post-advance counter `1` has two
counters `≥ 1` versus one `< 1`, so the entry is bumped to `2`. -/
theorem get_push_list_clears_tally_witness :
    (Gossip.get_push_list wHit).2.hits = [] ∧
      lookupA (Gossip.get_push_list wHit).2.messages 0 = some ((2, 1), 9) := by
  refine ⟨(get_push_list_clears_tally_and_majority_bump wHit).1, ?_⟩
  have h := (get_push_list_clears_tally_and_majority_bump wHit).2 0 1 1 9
    (by decide)
  simpa using h

/-- C5: `receive count p` inserts a fresh entry with
`push_counter = age_counter = count` when the digest is absent; when it is
present it raises `push_counter` to `count` exactly when
`count > push_counter`, leaving `age_counter` and the payload unchanged; and
in every case it appends `count` to the digest's hit tally. -/
theorem receive_updates_entry_and_tally (hash : π → δ) (c : Nat) (p : π)
    (g : Gossip δ π) :
    (lookupA g.messages (hash p) = none →
       lookupA (g.receive hash c p).messages (hash p) = some ((c, c), p)) ∧
    (∀ pc age pl, lookupA g.messages (hash p) = some ((pc, age), pl) →
       lookupA (g.receive hash c p).messages (hash p) =
         some ((if pc < c then c else pc, age), pl)) ∧
    lookupA (g.receive hash c p).hits (hash p) =
      some ((lookupA g.hits (hash p)).getD [] ++ [c]) := by
  have hm : (g.receive hash c p).messages
      = mapVal (fun k v =>
          if k = hash p ∧ v.1.1 < c then ((c, v.1.2), v.2) else v)
        (insertIfAbsent g.messages (hash p) ((c, c), p)) := rfl
  have hh : (g.receive hash c p).hits
      = mapVal (fun k v => if k = hash p then v ++ [c] else v)
        (insertIfAbsent g.hits (hash p) []) := rfl
  refine ⟨?_, ?_, ?_⟩
  · intro h
    rw [hm, lookupA_mapVal, lookupA_insertIfAbsent_self, h]
    simp
  · intro pc age pl h
    rw [hm, lookupA_mapVal, lookupA_insertIfAbsent_self, h]
    by_cases hlt : pc < c
    · simp [hlt]
    · simp [hlt]
  · rw [hh, lookupA_mapVal, lookupA_insertIfAbsent_self]
    simp

/-- Witness for `receive_updates_entry_and_tally` at a concrete store. -/
theorem receive_updates_entry_witness :
    lookupA (Gossip.receive id 3 4 wRecv).messages 4 = some ((3, 2), 4) ∧
      lookupA (Gossip.receive id 3 4 wRecv).hits 4 = some [3] := by
  constructor
  · have h := (receive_updates_entry_and_tally id 3 4 wRecv).2.1 1 2 4
      (by decide)
    simpa using h
  · have h := (receive_updates_entry_and_tally id 3 4 wRecv).2.2
    simpa using h

/-- C9: `handle_pull` performs no mutation — as an operation it leaves the
state unchanged, so two consecutive calls return identical results — and it
returns exactly the entries with `push_counter ≤ cold_rounds` and
`age_counter ≤ terminate_rounds`, paired with the current `push_counter`. -/
theorem handle_pull_pure_and_returns_cold_active (hash : π → δ)
    (g : Gossip δ π) :
    stepOp hash g Op.handle_pull = g ∧
      (∀ c pl, (c, pl) ∈ g.handle_pull ↔
        ∃ d age, (d, ((c, age), pl)) ∈ g.messages ∧
          c ≤ g.cold_rounds ∧ age ≤ g.terminate_rounds) ∧
      (stepOp hash g Op.handle_pull).handle_pull = g.handle_pull := by
  refine ⟨rfl, ?_, rfl⟩
  intro c pl
  rw [handle_pull, List.mem_filterMap]
  constructor
  · rintro ⟨e, he, hf⟩
    by_cases hcond : e.2.1.1 ≤ g.cold_rounds ∧ e.2.1.2 ≤ g.terminate_rounds
    · rw [if_pos hcond] at hf
      have hc : e.2.1.1 = c := congrArg Prod.fst (Option.some.inj hf)
      have hp : e.2.2 = pl := congrArg Prod.snd (Option.some.inj hf)
      refine ⟨e.1, e.2.1.2, ?_, hc ▸ hcond.1, hcond.2⟩
      rw [← hc, ← hp]
      exact he
    · rw [if_neg hcond] at hf
      cases hf
  · rintro ⟨d, age, hmem, hc, ha⟩
    exact ⟨(d, ((c, age), pl)), hmem, by simp [hc, ha]⟩

/-- C10: in a single `get_push_list` call an entry's `push_counter` grows by
at most one: the cold-phase advance and the majority-hit bump never both
apply to the same entry. -/
theorem push_counter_advances_at_most_one (g : Gossip δ π) (d : δ)
    (pc age : Nat) (pl : π)
    (h : lookupA g.messages d = some ((pc, age), pl))
    (pc' age' : Nat) (pl' : π)
    (h' : lookupA g.get_push_list.2.messages d = some ((pc', age'), pl')) :
    pc ≤ pc' ∧ pc' ≤ pc + 1 := by
  have ha := lookupA_roundAdvance g d pc age pl h
  have hb := lookupA_get_push_list g d _ _ pl ha
  rw [h'] at hb
  have hpc' : pc' =
      (if g.hot_rounds < pc ∧ pc ≤ g.cold_rounds then pc + 1 else pc) +
        (if condHit g.hot_rounds g.hits d
            (if g.hot_rounds < pc ∧ pc ≤ g.cold_rounds then pc + 1 else pc)
          then 1 else 0) :=
    congrArg (fun v => v.1.1) (Option.some.inj hb)
  by_cases hcond : g.hot_rounds < pc ∧ pc ≤ g.cold_rounds
  · rw [if_pos hcond] at hpc'
    have hno : condHit g.hot_rounds g.hits d (pc + 1) = false := by
      by_contra hcontra
      have : condHit g.hot_rounds g.hits d (pc + 1) = true := by
        revert hcontra
        cases condHit g.hot_rounds g.hits d (pc + 1) <;> simp
      have := condHit_le this
      omega
    rw [hno] at hpc'
    simp at hpc'
    omega
  · rw [if_neg hcond] at hpc'
    by_cases hch : condHit g.hot_rounds g.hits d pc
    · rw [if_pos hch] at hpc'
      omega
    · rw [if_neg hch] at hpc'
      omega

/-- Witness for `push_counter_advances_at_most_one` at a concrete store. -/
theorem push_counter_advances_witness : (2 : Nat) ≤ 3 ∧ (3 : Nat) ≤ 2 + 1 :=
  push_counter_advances_at_most_one wBump 0 2 0 1 (by decide) 3 1 1
    (by decide)

end Gossip

namespace Gossip

variable {δ π : Type} [DecidableEq δ]

theorem receive_lookup_ge (hash : π → δ) (c : Nat) (p : π)
    (g : Gossip δ π) :
    ∃ pc age pl,
      lookupA (g.receive hash c p).messages (hash p) = some ((pc, age), pl) ∧
        c ≤ pc := by
  have hm : (g.receive hash c p).messages
      = mapVal (fun k v =>
          if k = hash p ∧ v.1.1 < c then ((c, v.1.2), v.2) else v)
        (insertIfAbsent g.messages (hash p) ((c, c), p)) := rfl
  rcases hl : lookupA g.messages (hash p) with _ | w
  · refine ⟨c, c, p, ?_, le_refl c⟩
    rw [hm, lookupA_mapVal, lookupA_insertIfAbsent_self, hl]
    simp
  · obtain ⟨⟨pc, age⟩, pl⟩ := w
    by_cases hlt : pc < c
    · refine ⟨c, age, pl, ?_, le_refl c⟩
      rw [hm, lookupA_mapVal, lookupA_insertIfAbsent_self, hl]
      simp [hlt]
    · refine ⟨pc, age, pl, ?_, Nat.le_of_not_lt hlt⟩
      rw [hm, lookupA_mapVal, lookupA_insertIfAbsent_self, hl]
      simp [hlt]

theorem stepOp_preserves_lookup_mono (hash : π → δ) (g : Gossip δ π)
    (op : Op π) (d : δ) (pc age : Nat) (pl : π)
    (h : lookupA g.messages d = some ((pc, age), pl)) :
    ∃ pc' age' pl',
      lookupA (stepOp hash g op).messages d = some ((pc', age'), pl') ∧
        pc ≤ pc' := by
  cases op with
  | add_peer => exact ⟨pc, age, pl, h, le_refl pc⟩
  | handle_pull => exact ⟨pc, age, pl, h, le_refl pc⟩
  | inform m =>
      exact ⟨pc, age, pl, lookupA_insertIfAbsent_of_some _ _ h, le_refl pc⟩
  | receive c' m =>
      have h1 := lookupA_insertIfAbsent_of_some (hash m) ((c', c'), m) h
      have hm : (stepOp hash g (Op.receive c' m)).messages
          = mapVal (fun k v =>
              if k = hash m ∧ v.1.1 < c' then ((c', v.1.2), v.2) else v)
            (insertIfAbsent g.messages (hash m) ((c', c'), m)) := rfl
      by_cases hcc : d = hash m ∧ pc < c'
      · refine ⟨c', age, pl, ?_, le_of_lt hcc.2⟩
        rw [hm, lookupA_mapVal, h1]
        simp [hcc]
      · refine ⟨pc, age, pl, ?_, le_refl pc⟩
        rw [hm, lookupA_mapVal, h1]
        simp [hcc]
  | get_push_list =>
      have ha := lookupA_roundAdvance g d pc age pl h
      have hb := lookupA_get_push_list g d _ _ pl ha
      refine ⟨_, _, pl, hb, ?_⟩
      split_ifs <;> omega

theorem runOps_preserves_lookup_mono (hash : π → δ) :
    ∀ (ops : List (Op π)) (g : Gossip δ π) (d : δ) (pc age : Nat) (pl : π),
      lookupA g.messages d = some ((pc, age), pl) →
      ∃ pc' age' pl',
        lookupA (runOps hash g ops).messages d = some ((pc', age'), pl') ∧
          pc ≤ pc'
  | [], _, _, pc, age, pl, h => ⟨pc, age, pl, h, le_refl pc⟩
  | op :: t, g, d, pc, age, pl, h => by
      obtain ⟨pc1, age1, pl1, h1, hle1⟩ :=
        stepOp_preserves_lookup_mono hash g op d pc age pl h
      obtain ⟨pc2, age2, pl2, h2, hle2⟩ :=
        runOps_preserves_lookup_mono hash t (stepOp hash g op) d pc1 age1
          pl1 h1
      exact ⟨pc2, age2, pl2, h2, le_trans hle1 hle2⟩

/-- C7: after any operation sequence containing a `receive c p` call, the
stored `push_counter` for `p` is at least `c`; every later operation keeps it
so (the counter never decreases). -/
theorem receive_monotonic_catch_up (hash : π → δ) (g : Gossip δ π)
    (pre post : List (Op π)) (c : Nat) (p : π) :
    ∃ pc age pl,
      lookupA (runOps hash g (pre ++ Op.receive c p :: post)).messages
        (hash p) = some ((pc, age), pl) ∧ c ≤ pc := by
  have hsplit : runOps hash g (pre ++ Op.receive c p :: post)
      = runOps hash (stepOp hash (runOps hash g pre) (Op.receive c p))
          post := by
    simp [runOps, List.foldl_append]
  rw [hsplit]
  obtain ⟨pc, age, pl, hl, hge⟩ :=
    receive_lookup_ge hash c p (runOps hash g pre)
  obtain ⟨pc', age', pl', hl', hmono⟩ :=
    runOps_preserves_lookup_mono hash post _ (hash p) pc age pl hl
  exact ⟨pc', age', pl', hl', le_trans hge hmono⟩

end Gossip

namespace Gossip

variable {δ π : Type} [DecidableEq δ]

theorem hitAdjust_preserves_age_payload (hot : Nat)
    (tally : List (δ × List Nat)) (k : δ) (v : (Nat × Nat) × π) :
    (hitAdjust hot tally k v).1.2 = v.1.2 ∧
      (hitAdjust hot tally k v).2 = v.2 := by
  rcases h : lookupA tally k with _ | hs
  · rw [hitAdjust, h]
    exact ⟨rfl, rfl⟩
  · rw [hitAdjust, h]
    dsimp only
    split_ifs
    · exact ⟨rfl, rfl⟩
    · exact ⟨rfl, rfl⟩

theorem deadFor_stepOp [DecidableEq π] (hash : π → δ) (p : π) (T : Nat)
    (g : Gossip δ π) (op : Op π) (hop : op ≠ Op.add_peer)
    (h : deadFor hash p T g) : deadFor hash p T (stepOp hash g op) := by
  obtain ⟨hT, hsome, hdead⟩ := h
  cases op with
  | add_peer => exact absurd rfl hop
  | handle_pull => exact ⟨hT, hsome, hdead⟩
  | inform m =>
      rcases hlm : lookupA g.messages (hash m) with _ | w
      · -- the key is absent: a fresh entry with payload `m ≠ p` is appended
        have hmm : (stepOp hash g (Op.inform m)).messages
            = g.messages ++ [(hash m, ((0, 0), m))] := by
          show insertIfAbsent g.messages (hash m) ((0, 0), m) = _
          rw [insertIfAbsent, hlm]
        refine ⟨hT, ?_, ?_⟩
        · rw [hmm]
          obtain ⟨w, hw⟩ := Option.isSome_iff_exists.1 hsome
          rw [lookupA_append_of_some _ hw]
          rfl
        · intro e he hep
          rw [hmm] at he
          rcases List.mem_append.1 he with h1 | h2
          · exact hdead e h1 hep
          · have he2 : e = (hash m, ((0, 0), m)) := List.mem_singleton.1 h2
            have hmp : hash m = hash p := by
              rw [← hep, he2]
            rw [hmp] at hlm
            rw [hlm] at hsome
            cases hsome
      · have hmm : (stepOp hash g (Op.inform m)).messages = g.messages := by
          show insertIfAbsent g.messages (hash m) ((0, 0), m) = _
          rw [insertIfAbsent, hlm]
        exact ⟨hT, by rw [hmm]; exact hsome, by rw [hmm]; exact hdead⟩
  | receive c m =>
      have hmm : (stepOp hash g (Op.receive c m)).messages
          = mapVal (fun k v =>
              if k = hash m ∧ v.1.1 < c then ((c, v.1.2), v.2) else v)
            (insertIfAbsent g.messages (hash m) ((c, c), m)) := rfl
      refine ⟨hT, ?_, ?_⟩
      · rw [hmm, lookupA_mapVal]
        obtain ⟨w, hw⟩ := Option.isSome_iff_exists.1 hsome
        rw [lookupA_insertIfAbsent_of_some _ _ hw]
        rfl
      · intro e he hep
        rw [hmm] at he
        obtain ⟨e0, he0, heq⟩ := mem_mapVal he
        have hpay : e.2.2 = e0.2.2 := by
          rw [heq]
          split_ifs <;> rfl
        have hage : e.2.1.2 = e0.2.1.2 := by
          rw [heq]
          split_ifs <;> rfl
        rw [hpay] at hep
        rw [hage]
        rcases hlm : lookupA g.messages (hash m) with _ | w
        · rw [insertIfAbsent, hlm] at he0
          rcases List.mem_append.1 he0 with h1 | h2
          · exact hdead e0 h1 hep
          · have he2 : e0 = (hash m, ((c, c), m)) := List.mem_singleton.1 h2
            have hmp : hash m = hash p := by
              rw [← hep, he2]
            rw [hmp] at hlm
            rw [hlm] at hsome
            cases hsome
        · rw [insertIfAbsent, hlm] at he0
          exact hdead e0 he0 hep
  | get_push_list =>
      have hmm : (stepOp hash g Op.get_push_list).messages
          = mapVal (hitAdjust g.hot_rounds g.hits)
              g.roundAdvance.messages := rfl
      have hadv : g.roundAdvance.messages
          = mapVal (fun _ v =>
              (advanceEntry g.hot_rounds g.cold_rounds g.terminate_rounds v.1,
               v.2)) g.messages := rfl
      refine ⟨hT, ?_, ?_⟩
      · rw [hmm, lookupA_mapVal, hadv, lookupA_mapVal]
        obtain ⟨w, hw⟩ := Option.isSome_iff_exists.1 hsome
        rw [hw]
        rfl
      · intro e he hep
        rw [hmm] at he
        obtain ⟨e1, he1, heq1⟩ := mem_mapVal he
        rw [hadv] at he1
        obtain ⟨e0, he0, heq0⟩ := mem_mapVal he1
        have hpres := hitAdjust_preserves_age_payload g.hot_rounds g.hits
          e1.1 e1.2
        have hpay : e.2.2 = e0.2.2 := by
          rw [heq1]
          rw [hpres.2]
          rw [heq0]
        have hage1 : e.2.1.2 = e1.2.1.2 := by
          rw [heq1]
          exact hpres.1
        have hage0 : e1.2.1.2
            = if e0.2.1.2 ≤ g.terminate_rounds then e0.2.1.2 + 1
              else e0.2.1.2 := by
          rw [heq0]
          rfl
        rw [hpay] at hep
        have hold : T < e0.2.1.2 := hdead e0 he0 hep
        rw [hage1, hage0]
        split_ifs <;> omega

theorem deadFor_runOps [DecidableEq π] (hash : π → δ) (p : π) (T : Nat) :
    ∀ (ops : List (Op π)) (g : Gossip δ π),
      (∀ op ∈ ops, op ≠ Op.add_peer) → deadFor hash p T g →
      deadFor hash p T (runOps hash g ops)
  | [], _, _, h => h
  | op :: t, g, hops, h => by
      have h1 := deadFor_stepOp hash p T g op
        (hops op (List.mem_cons_self op t)) h
      exact deadFor_runOps hash p T t (stepOp hash g op)
        (fun o ho => hops o (List.mem_cons_of_mem op ho)) h1

theorem deadFor_excluded [DecidableEq π] (hash : π → δ) (p : π) (T : Nat)
    (g : Gossip δ π) (h : deadFor hash p T g) (c : Nat) :
    (c, p) ∉ g.get_push_list.1 ∧ (c, p) ∉ g.handle_pull := by
  obtain ⟨hT, _, hdead⟩ := h
  constructor
  · intro hmem
    have h1 : g.get_push_list.1 = g.pushSnapshot := rfl
    rw [h1, pushSnapshot, List.mem_filterMap] at hmem
    obtain ⟨e, he, hf⟩ := hmem
    by_cases hcond : e.2.1.1 ≤ g.hot_rounds ∧ e.2.1.2 ≤ g.terminate_rounds
    · rw [if_pos hcond] at hf
      have hp : e.2.2 = p := congrArg Prod.snd (Option.some.inj hf)
      have hlt := hdead e he hp
      have := hcond.2
      omega
    · rw [if_neg hcond] at hf
      cases hf
  · intro hmem
    rw [handle_pull, List.mem_filterMap] at hmem
    obtain ⟨e, he, hf⟩ := hmem
    by_cases hcond : e.2.1.1 ≤ g.cold_rounds ∧ e.2.1.2 ≤ g.terminate_rounds
    · rw [if_pos hcond] at hf
      have hp : e.2.2 = p := congrArg Prod.snd (Option.some.inj hf)
      have hlt := hdead e he hp
      have := hcond.2
      omega
    · rw [if_neg hcond] at hf
      cases hf

/-- C1 (amended): once every stored entry for payload `p` has `age_counter`
above `terminate_rounds`, `p` is excluded from the results of every
subsequent `get_push_list` and `handle_pull` call under any further sequence
of `inform`, `receive`, `get_push_list` and `handle_pull` operations — but
not under `add_peer`, which can raise `terminate_rounds` and make the rumor
visible again. -/
theorem terminated_rumor_stays_excluded [DecidableEq π] (hash : π → δ)
    (g : Gossip δ π) (p : π) (ops : List (Op π))
    (hops : ∀ op ∈ ops, op ≠ Op.add_peer)
    (hsome : (lookupA g.messages (hash p)).isSome = true)
    (hdead : ∀ e ∈ g.messages, e.2.2 = p → g.terminate_rounds < e.2.1.2)
    (c : Nat) :
    (c, p) ∉ (runOps hash g ops).get_push_list.1 ∧
      (c, p) ∉ (runOps hash g ops).handle_pull := by
  have hinv : deadFor hash p g.terminate_rounds (runOps hash g ops) :=
    deadFor_runOps hash p g.terminate_rounds ops g hops ⟨rfl, hsome, hdead⟩
  exact deadFor_excluded hash p g.terminate_rounds (runOps hash g ops)
    hinv c

/-- Witness for `terminated_rumor_stays_excluded` at a concrete store and a
concrete `add_peer`-free operation sequence. -/
theorem terminated_rumor_stays_excluded_witness :
    ((0 : Nat), (7 : Nat)) ∉ (runOps id wDead wOpsDead).get_push_list.1 ∧
      ((0 : Nat), (7 : Nat)) ∉ (runOps id wDead wOpsDead).handle_pull :=
  terminated_rumor_stays_excluded id wDead 7 wOpsDead (by decide)
    (by decide) (by decide) 0

/-- C1 (counterexample to the claim as stated): from the empty store, one
`add_peer` then `inform 0` then four rounds leave the rumor's `age_counter`
at `3`, strictly above `terminate_rounds = 2`, and it is excluded from both
queries; twenty further `add_peer` calls raise `terminate_rounds` to `3` and
the rumor reappears in both `get_push_list` and `handle_pull`, so the
exclusion is not permanent under further `add_peer` calls. -/
theorem add_peer_resurrects_terminated_rumor :
    lookupA cexMid.messages 0 = some ((0, 3), 0) ∧
      cexMid.terminate_rounds = 2 ∧
      ((0 : Nat), (0 : Nat)) ∉ cexMid.get_push_list.1 ∧
      ((0 : Nat), (0 : Nat)) ∉ cexMid.handle_pull ∧
      cexFin.terminate_rounds = 3 ∧
      ((0 : Nat), (0 : Nat)) ∈ cexFin.get_push_list.1 ∧
      ((0 : Nat), (0 : Nat)) ∈ cexFin.handle_pull := by
  decide

end Gossip

section InsertLemmas

variable {δ β : Type} [DecidableEq δ]

theorem insertIfAbsent_of_isSome {l : List (δ × β)} {k : δ} (v : β)
    (h : (lookupA l k).isSome = true) : insertIfAbsent l k v = l := by
  rcases hl : lookupA l k with _ | w
  · rw [hl] at h
    cases h
  · unfold insertIfAbsent
    rw [hl]

theorem insertIfAbsent_idem (l : List (δ × β)) (k : δ) (v : β) :
    insertIfAbsent (insertIfAbsent l k v) k v = insertIfAbsent l k v := by
  apply insertIfAbsent_of_isSome
  rw [lookupA_insertIfAbsent_self]
  rfl

end InsertLemmas

namespace Gossip

variable {δ π : Type} [DecidableEq δ]

theorem count_payload_eq_one [DecidableEq π] (hash : π → δ) (p : π)
    (hinj : Function.Injective hash) :
    ∀ l : List (δ × ((Nat × Nat) × π)),
      (∀ e ∈ l, e.1 = hash e.2.2) → (l.map Prod.fst).Nodup →
      (lookupA l (hash p)).isSome = true →
      List.count p (l.map (fun v => v.2.2)) = 1
  | [], _, _, hsome => by
      rw [lookupA] at hsome
      cases hsome
  | e :: t, hkeys, hnodup, hsome => by
      have hnodup' : (t.map Prod.fst).Nodup ∧ e.1 ∉ t.map Prod.fst := by
        rw [List.map_cons, List.nodup_cons] at hnodup
        exact ⟨hnodup.2, hnodup.1⟩
      by_cases he : e.1 = hash p
      · have hpe : e.2.2 = p := by
          apply hinj
          rw [← hkeys e (List.mem_cons_self e t), he]
        have hcnt0 : List.count p (t.map (fun v => v.2.2)) = 0 := by
          rw [List.count_eq_zero]
          intro hmem
          obtain ⟨e2, he2, hpe2⟩ := List.mem_map.1 hmem
          have h1 : e2.1 = hash p := by
            rw [hkeys e2 (List.mem_cons_of_mem e he2), hpe2]
          apply hnodup'.2
          exact List.mem_map.2 ⟨e2, he2, by rw [h1, ← he]⟩
        rw [List.map_cons, List.count_cons]
        simp [hpe, hcnt0]
      · have hpe : e.2.2 ≠ p := by
          intro hc
          apply he
          rw [hkeys e (List.mem_cons_self e t), hc]
        have hsome' : (lookupA t (hash p)).isSome = true := by
          rw [lookupA, if_neg he] at hsome
          exact hsome
        have ih := count_payload_eq_one hash p hinj t
          (fun e2 h2 => hkeys e2 (List.mem_cons_of_mem e h2)) hnodup'.1
          hsome'
        rw [List.map_cons, List.count_cons]
        simp [hpe, ih]

/-- C8: `inform` is idempotent — calling it when the payload's digest is
already stored (however the entry was first registered, by `inform` or by
`receive`) leaves the entire store state unchanged; a second `inform p`
leaves the state of the first; a first `inform p` on an absent digest
inserts the entry with `push_counter = age_counter = 0`; and after two
`inform p` calls a well-formed store holds exactly one entry for `p` in
`messages`. -/
theorem inform_idempotent [DecidableEq π] (hash : π → δ) (p : π)
    (g : Gossip δ π) :
    ((lookupA g.messages (hash p)).isSome = true → inform hash p g = g) ∧
      inform hash p (inform hash p g) = inform hash p g ∧
      (lookupA g.messages (hash p) = none →
        lookupA (inform hash p g).messages (hash p) = some ((0, 0), p)) ∧
      (WF hash g → Function.Injective hash →
        List.count p
          (messagesSnapshot (inform hash p (inform hash p g))) = 1) := by
  have hnoop : ∀ g2 : Gossip δ π,
      (lookupA g2.messages (hash p)).isSome = true →
      inform hash p g2 = g2 := by
    intro g2 hsome
    have h1 : inform hash p g2
        = { g2 with
            messages := insertIfAbsent g2.messages (hash p) ((0, 0), p) } :=
      rfl
    rw [h1, insertIfAbsent_of_isSome _ hsome]
  have hsome1 : (lookupA (inform hash p g).messages (hash p)).isSome
      = true := by
    have h2 : (inform hash p g).messages
        = insertIfAbsent g.messages (hash p) ((0, 0), p) := rfl
    rw [h2, lookupA_insertIfAbsent_self]
    rfl
  have hidem := hnoop (inform hash p g) hsome1
  refine ⟨hnoop g, hidem, ?_, ?_⟩
  · intro h
    have h2 : (inform hash p g).messages
        = insertIfAbsent g.messages (hash p) ((0, 0), p) := rfl
    rw [h2, lookupA_insertIfAbsent_self, h]
    rfl
  · intro hwf hinj
    rw [hidem]
    have h2 : messagesSnapshot (inform hash p g)
        = (insertIfAbsent g.messages (hash p) ((0, 0), p)).map
            (fun v => v.2.2) := rfl
    rw [h2]
    apply count_payload_eq_one hash p hinj
    · intro e he
      rcases mem_insertIfAbsent he with h1 | h1
      · exact hwf.1 e h1
      · rw [h1]
    · rcases hl : lookupA g.messages (hash p) with _ | w
      · have h3 : insertIfAbsent g.messages (hash p) ((0, 0), p)
            = g.messages ++ [(hash p, ((0, 0), p))] := by
          unfold insertIfAbsent
          rw [hl]
        rw [h3, List.map_append]
        rw [List.nodup_append]
        refine ⟨hwf.2, List.nodup_singleton _, ?_⟩
        intro a ha hb
        obtain ⟨e, he, hea⟩ := List.mem_map.1 ha
        have hne := (lookupA_eq_none_iff g.messages (hash p)).1 hl e he
        rw [List.map_singleton, List.mem_singleton] at hb
        rw [hb] at hea
        exact hne hea
      · have h3 : insertIfAbsent g.messages (hash p) ((0, 0), p)
            = g.messages := by
          unfold insertIfAbsent
          rw [hl]
        rw [h3]
        exact hwf.2
    · rw [lookupA_insertIfAbsent_self]
      rfl

/-- Witness for `inform_idempotent`: the no-op case on a store whose entry
was registered by `receive`, and the insert and count cases on the empty
store. -/
theorem inform_idempotent_witness :
    Gossip.inform id 4 wInf = wInf ∧
      lookupA ((Gossip.new : Gossip Nat Nat).inform id 2).messages 2
          = some ((0, 0), 2) ∧
      List.count 2
        (Gossip.messagesSnapshot
          (((Gossip.new : Gossip Nat Nat).inform id 2).inform id 2)) = 1 := by
  refine ⟨(inform_idempotent id 4 wInf).1 (by decide), ?_, ?_⟩
  · exact (inform_idempotent id 2 (Gossip.new : Gossip Nat Nat)).2.2.1
      (by decide)
  · exact (inform_idempotent id 2 (Gossip.new : Gossip Nat Nat)).2.2.2
      ⟨by decide, by decide⟩ (fun a b h => h)

end Gossip


